import Mathlib

/-!
A shallow embedding of `bmaptools/TransRead.py`: the buffered
transparent-decompression reader `_CompressedFile`, the forward-seek
emulator (`_fake_seek_forward`, `_fake_tell`, `_add_fake_seek`), and the
single-member tarball arm of `TransRead._open_compressed_file`.

Modelling conventions.  Bytes are natural numbers and Python byte strings
are `List Nat`.  The raw file object `_file_obj` is modelled by the full
byte sequence `data` it will ever deliver together with a cursor `fpos`;
`_file_obj.read(n)` returns the next `min n (data.length - fpos)` bytes
and advances the cursor.  A stateful streaming decompressor is modelled by
its cumulative output function `D : List Nat → List Nat`, mapping the
compressed bytes consumed so far to the total decompressed output produced
so far; the output of a single `decompress(chunk)` call is the new
cumulative output with the previous cumulative output removed from the
front.  `decomp = none` models `decompress_func = None`.  Errors raised by
the module's single `Error` class are modelled by the inductive `TRError`,
one constructor per raise site in scope; a method that can raise while
mutating returns the error (or `none`) together with the post-state.
-/

namespace TransRead

/-- State of a `_CompressedFile` object, together with the `_pos`
attribute that `_add_fake_seek` installs (the Python code tests
`hasattr(self, "_pos")`, modelled by the `hasPos` flag). -/
structure CFile where
  data : List Nat
  fpos : Nat
  buffer : List Nat
  buffer_pos : Nat
  eof : Bool
  hasPos : Bool
  pos : Nat
  deriving Repr, DecidableEq

/-- `_CompressedFile.__init__` (buffer empty, cursor 0, eof false)
followed, when `hp` is true, by `_add_fake_seek` (which sets `_pos = 0`). -/
def initState (data : List Nat) (hp : Bool) : CFile :=
  ⟨data, 0, [], 0, false, hp, 0⟩

/-- The bytes of the internal buffer that have not yet been delivered:
`self._buffer[self._buffer_pos:]`. -/
def pending (s : CFile) : List Nat :=
  s.buffer.drop s.buffer_pos

/-- `_CompressedFile._read_from_buffer(length)`. -/
def readFromBuffer (s : CFile) (length : Nat) : List Nat × CFile :=
  if s.buffer.length - s.buffer_pos > length then
    ((s.buffer.drop s.buffer_pos).take length,
      { s with buffer_pos := s.buffer_pos + length })
  else
    (s.buffer.drop s.buffer_pos, { s with buffer := [], buffer_pos := 0 })

/-- The result of `self._decompress_func(buf)` for the raw chunk `raw`
just taken from position `s.fpos`, under the cumulative-output model of
the decompressor; with no decompressor the raw chunk passes through. -/
def dchunk (decomp : Option (List Nat → List Nat)) (s : CFile) (raw : List Nat) :
    List Nat :=
  match decomp with
  | none => raw
  | some D => (D (s.data.take (s.fpos + raw.length))).drop
      (D (s.data.take s.fpos)).length

/-- The `while size > 0` fill loop of `_CompressedFile.read`.  `chunk` is
the `chunk_size` computed before the loop, `acc` the data accumulated so
far.  The loop terminates because every iteration consumes at least one
raw byte; `fuel` is a structural bound on the number of iterations, and
callers pass `s.data.length + 1`, which always suffices (the `fuel = 0`
arm is unreachable from `read`). -/
def readLoop (decomp : Option (List Nat → List Nat)) (chunk : Nat) :
    Nat → CFile → Nat → List Nat → List Nat × CFile
  | 0, s, _, acc => (acc, s)
  | fuel + 1, s, size, acc =>
    if 0 < size then
      let raw := (s.data.drop s.fpos).take chunk
      if raw = [] then
        (acc, { s with eof := true })
      else
        let s1 := { s with fpos := s.fpos + raw.length }
        let buf := dchunk decomp s raw
        if decomp.isSome ∧ buf = [] then
          readLoop decomp chunk fuel s1 size acc
        else if size ≤ buf.length then
          let p := readFromBuffer { s1 with buffer := buf, buffer_pos := 0 } size
          (acc ++ p.1, p.2)
        else
          readLoop decomp chunk fuel s1 (size - buf.length) (acc ++ buf)
    else (acc, s)

/-- The `if hasattr(self, "_pos"): self._pos += len(data)` step at the
end of `_CompressedFile.read`. -/
def posUpdate (s : CFile) (delivered : Nat) : CFile :=
  if s.hasPos then { s with pos := s.pos + delivered } else s

/-- `_CompressedFile.read(size)`: early return at EOF, then the buffer
read, then the fill loop with `chunk_size = max(size, 128 * 1024)`, then
the `_pos` update when the fake-seek attributes are installed. -/
def read (decomp : Option (List Nat → List Nat)) (s : CFile) (size : Nat) :
    List Nat × CFile :=
  if s.eof then ([], s)
  else
    let p := readFromBuffer s size
    let size1 := size - p.1.length
    let chunk := max size1 (128 * 1024)
    let q := readLoop decomp chunk (s.data.length + 1) p.2 size1 p.1
    (q.1, posUpdate q.2 q.1.length)

/-- Errors raised through the module's `Error` class, one constructor per
raise site modelled here. -/
inductive TRError where
  | badWhence (whence : Int)
  | backwardSeek (pos : Nat) (newPos : Int)
  | seekedTooFar (pos : Nat) (newPos : Int)
  | tarMoreThanOne (name : String)
  | tarEmpty (name : String)
  deriving Repr, DecidableEq

/-- Whether an optional error is the `"seeked too far"` error. -/
def isSeekedTooFar : Option TRError → Bool
  | some (.seekedTooFar _ _) => true
  | _ => false

/-- Whether an optional error is the backward-seek error. -/
def isBackwardSeek : Option TRError → Bool
  | some (.backwardSeek _ _) => true
  | _ => false

/-- The `while to_read > 0` discard-read loop of `_fake_seek_forward`,
returning the final `to_read` and state.  Each iteration that does not
break consumes at least one byte, so `to_read.toNat` bounds the number of
iterations; callers pass that as `fuel` (at `fuel = 0` we have
`to_read ≤ 0` and the loop would exit anyway). -/
def seekLoop (decomp : Option (List Nat → List Nat)) :
    Nat → CFile → Int → Int × CFile
  | 0, s, t => (t, s)
  | fuel + 1, s, t =>
    if 0 < t then
      let p := read decomp s t.toNat
      if p.1 = [] then (t, p.2)
      else seekLoop decomp fuel p.2 (t - p.1.length)
    else (t, s)

/-- `os.SEEK_SET`. -/
def SEEK_SET : Int := 0

/-- `os.SEEK_CUR`. -/
def SEEK_CUR : Int := 1

/-- The part of `_fake_seek_forward` after `new_pos` is resolved: the
backward-seek check, the discard-read loop, and the final
`if to_read < 0` check. -/
def fakeSeekResolved (decomp : Option (List Nat → List Nat)) (s : CFile)
    (newPos : Int) : Option TRError × CFile :=
  if newPos < (s.pos : Int) then
    (some (.backwardSeek s.pos newPos), s)
  else
    let length : Int := newPos - (s.pos : Int)
    let r := seekLoop decomp length.toNat s length
    if r.1 < 0 then (some (.seekedTooFar r.2.pos newPos), r.2)
    else (none, r.2)

/-- `_fake_seek_forward(self, offset, whence)`.  Returns the raised error
(if any) together with the post-state, since the Python method mutates
`self` through the `self.read` calls before any late raise. -/
def fakeSeekForward (decomp : Option (List Nat → List Nat)) (s : CFile)
    (offset : Int) (whence : Int) : Option TRError × CFile :=
  if whence = SEEK_SET then
    fakeSeekResolved decomp s offset
  else if whence = SEEK_CUR then
    fakeSeekResolved decomp s ((s.pos : Int) + offset)
  else
    (some (.badWhence whence), s)

/-- `_fake_tell`. -/
def fakeTell (s : CFile) : Nat :=
  s.pos

/-- Successive `read` calls with the given sizes; returns the
concatenation of their results and the final state. -/
def runReads (decomp : Option (List Nat → List Nat)) :
    List Nat → CFile → List Nat × CFile
  | [], s => ([], s)
  | n :: ns, s =>
    let p := read decomp s n
    let q := runReads decomp ns p.2
    (p.1 ++ q.1, q.2)

/-- States a `_CompressedFile` object can actually be in: freshly
constructed, or the post-state of a `read` or of a (fake) `seek`. -/
inductive Reachable (decomp : Option (List Nat → List Nat)) : CFile → Prop where
  | init (data : List Nat) (hp : Bool) : Reachable decomp (initState data hp)
  | step (s : CFile) (n : Nat) (h : Reachable decomp s) :
      Reachable decomp (read decomp s n).2
  | seek (s : CFile) (offset whence : Int) (h : Reachable decomp s) :
      Reachable decomp (fakeSeekForward decomp s offset whence).2

/-- The internal-buffer shape every reachable state satisfies: the cursor
is strictly inside the buffer, or the buffer is cleared. -/
def BufferOk (s : CFile) : Prop :=
  s.buffer_pos < s.buffer.length ∨ (s.buffer = [] ∧ s.buffer_pos = 0)

/-- The EOF shape every reachable state satisfies: once `_eof` is set the
buffer is cleared and the raw source is exhausted. -/
def EofOk (s : CFile) : Prop :=
  s.eof = true → s.buffer = [] ∧ s.buffer_pos = 0 ∧ s.data.length ≤ s.fpos

/-- Mirror of the fill loop that records whether the two in-loop asserts
(`assert len(self._buffer) == 0`, `assert self._buffer_pos == 0`) hold at
every iteration that reaches them. -/
def readLoopAssertsOk (decomp : Option (List Nat → List Nat)) (chunk : Nat) :
    Nat → CFile → Nat → Bool
  | 0, _, _ => true
  | fuel + 1, s, size =>
    if 0 < size then
      let raw := (s.data.drop s.fpos).take chunk
      if raw = [] then true
      else
        let s1 := { s with fpos := s.fpos + raw.length }
        let buf := dchunk decomp s raw
        if decomp.isSome ∧ buf = [] then
          readLoopAssertsOk decomp chunk fuel s1 size
        else
          (decide (s1.buffer = []) && decide (s1.buffer_pos = 0)) &&
          (if size ≤ buf.length then true
           else readLoopAssertsOk decomp chunk fuel s1 (size - buf.length))
    else true

/-- Whether all asserts executed by one `read(size)` call hold: the two
entry asserts about the buffer cursor and the in-loop buffer-empty
asserts. -/
def readAssertsOk (decomp : Option (List Nat → List Nat)) (s : CFile)
    (size : Nat) : Bool :=
  decide (s.buffer_pos ≤ s.buffer.length) &&
  (if s.eof then true
   else
     let p := readFromBuffer s size
     let size1 := size - p.1.length
     readLoopAssertsOk decomp (max size1 (128 * 1024)) (s.data.length + 1)
       p.2 size1)

/-- One member of a tar archive, as the dispatch code sees it: the byte
stream `tar.extractfile` would expose and the declared `size`. -/
structure TarMember where
  stream : List Nat
  size : Nat
  deriving Repr, DecidableEq

/-- The tarball arm of `TransRead._open_compressed_file`: requires exactly
one member and exposes that member's stream and declared size. -/
def openTarMember (name : String) (members : List TarMember) :
    Except TRError (List Nat × Nat) :=
  if members.length > 1 then
    .error (.tarMoreThanOne name)
  else
    match members with
    | [] => .error (.tarEmpty name)
    | m :: _ => .ok (m.stream, m.size)

/-- The suffix test selecting the tarball arm of
`TransRead._open_compressed_file`: `name.endswith` on the three tar
suffixes, modelled as a suffix test on the name's character list. -/
def isTarName (name : String) : Bool :=
  (".tar.gz").toList.isSuffixOf name.toList
    || (".tar.bz2").toList.isSuffixOf name.toList
    || (".tgz").toList.isSuffixOf name.toList

/-- What it means for `D` to be the cumulative-output function of a
streaming decompressor run on the raw byte sequence `data`: feeding more
compressed bytes only ever extends the decompressed output already
produced. -/
def CumulOk (D : List Nat → List Nat) (data : List Nat) : Prop :=
  ∀ i j, i ≤ j → List.IsPrefix (D (data.take i)) (D (data.take j))

/-!  ## Basic facts about `_read_from_buffer` -/

theorem rfb_fst (s : CFile) (n : Nat) :
    (readFromBuffer s n).1 = (pending s).take n := by
  unfold readFromBuffer pending
  split
  · rfl
  · rename_i h
    rw [List.take_of_length_le]
    rw [List.length_drop]
    omega

theorem rfb_pending (s : CFile) (n : Nat) :
    pending (readFromBuffer s n).2 = (pending s).drop n := by
  unfold readFromBuffer pending
  split
  · rename_i h
    simp [List.drop_drop]
  · rename_i h
    simp only [List.drop_nil]
    symm
    rw [List.drop_eq_nil_iff, List.length_drop]
    omega

theorem rfb_append (s : CFile) (n : Nat) :
    (readFromBuffer s n).1 ++ pending (readFromBuffer s n).2 = pending s := by
  rw [rfb_fst, rfb_pending, List.take_append_drop]

theorem rfb_len (s : CFile) (n : Nat) :
    (readFromBuffer s n).1.length = min n (pending s).length := by
  rw [rfb_fst, List.length_take]

@[simp] theorem rfb_data (s : CFile) (n : Nat) :
    (readFromBuffer s n).2.data = s.data := by
  unfold readFromBuffer; split <;> rfl

@[simp] theorem rfb_fpos (s : CFile) (n : Nat) :
    (readFromBuffer s n).2.fpos = s.fpos := by
  unfold readFromBuffer; split <;> rfl

@[simp] theorem rfb_eof (s : CFile) (n : Nat) :
    (readFromBuffer s n).2.eof = s.eof := by
  unfold readFromBuffer; split <;> rfl

@[simp] theorem rfb_hasPos (s : CFile) (n : Nat) :
    (readFromBuffer s n).2.hasPos = s.hasPos := by
  unfold readFromBuffer; split <;> rfl

@[simp] theorem rfb_pos (s : CFile) (n : Nat) :
    (readFromBuffer s n).2.pos = s.pos := by
  unfold readFromBuffer; split <;> rfl

theorem rfb_clears (s : CFile) (n : Nat)
    (h : (readFromBuffer s n).1.length < n) :
    (readFromBuffer s n).2.buffer = [] ∧ (readFromBuffer s n).2.buffer_pos = 0 := by
  revert h
  unfold readFromBuffer
  split
  · rename_i hc
    intro h
    exfalso
    rw [List.length_take, List.length_drop] at h
    omega
  · intro _
    exact ⟨rfl, rfl⟩

theorem rfb_bufferOk (s : CFile) (n : Nat) : BufferOk (readFromBuffer s n).2 := by
  unfold readFromBuffer BufferOk
  split
  · rename_i hc
    left
    simp only
    omega
  · right
    exact ⟨rfl, rfl⟩

/-!  ## Basic facts about `posUpdate` -/

@[simp] theorem posUpdate_data (s : CFile) (k : Nat) :
    (posUpdate s k).data = s.data := by
  unfold posUpdate; split <;> rfl

@[simp] theorem posUpdate_fpos (s : CFile) (k : Nat) :
    (posUpdate s k).fpos = s.fpos := by
  unfold posUpdate; split <;> rfl

@[simp] theorem posUpdate_buffer (s : CFile) (k : Nat) :
    (posUpdate s k).buffer = s.buffer := by
  unfold posUpdate; split <;> rfl

@[simp] theorem posUpdate_buffer_pos (s : CFile) (k : Nat) :
    (posUpdate s k).buffer_pos = s.buffer_pos := by
  unfold posUpdate; split <;> rfl

@[simp] theorem posUpdate_eof (s : CFile) (k : Nat) :
    (posUpdate s k).eof = s.eof := by
  unfold posUpdate; split <;> rfl

@[simp] theorem posUpdate_hasPos (s : CFile) (k : Nat) :
    (posUpdate s k).hasPos = s.hasPos := by
  unfold posUpdate; split <;> rfl

@[simp] theorem posUpdate_pending (s : CFile) (k : Nat) :
    pending (posUpdate s k) = pending s := by
  unfold pending; simp

theorem posUpdate_pos_true (s : CFile) (k : Nat) (h : s.hasPos = true) :
    (posUpdate s k).pos = s.pos + k := by
  unfold posUpdate
  rw [if_pos h]

theorem posUpdate_pos_false (s : CFile) (k : Nat) (h : s.hasPos = false) :
    (posUpdate s k).pos = s.pos := by
  unfold posUpdate
  rw [if_neg (by simp [h])]

theorem posUpdate_pos_le (s : CFile) (k : Nat) : s.pos ≤ (posUpdate s k).pos := by
  unfold posUpdate; split <;> simp

/-!  ## Basic facts about the fill loop of `read` -/

theorem raw_ne_nil_fpos (s : CFile) (c : Nat)
    (h : (s.data.drop s.fpos).take c ≠ []) : s.fpos < s.data.length := by
  by_contra hc
  apply h
  rw [List.drop_eq_nil_of_le (by omega), List.take_nil]

/-- The loop only ever appends to the accumulated data. -/
theorem loop_acc_pref (d : Option (List Nat → List Nat)) (c : Nat) :
    ∀ fuel s size acc,
      List.IsPrefix acc (readLoop d c fuel s size acc).1 := by
  intro fuel
  induction fuel with
  | zero =>
    intro s size acc
    exact List.prefix_rfl
  | succ fuel ih =>
    intro s size acc
    simp only [readLoop]
    split
    · split
      · exact List.prefix_rfl
      · split
        · exact ih _ _ _
        · split
          · exact List.prefix_append _ _
          · exact (List.prefix_append _ _).trans (ih _ _ _)
    · exact List.prefix_rfl

/-- The loop delivers at most `size` additional bytes. -/
theorem loop_len (d : Option (List Nat → List Nat)) (c : Nat) :
    ∀ fuel s size acc,
      (readLoop d c fuel s size acc).1.length ≤ acc.length + size := by
  intro fuel
  induction fuel with
  | zero =>
    intro s size acc
    simp [readLoop]
  | succ fuel ih =>
    intro s size acc
    simp only [readLoop]
    split
    · split
      · simp
      · split
        · exact ih _ _ _
        · split
          · simp only [List.length_append]
            rw [rfb_len]
            omega
          · rename_i hunder
            refine le_trans (ih _ _ _) ?_
            simp only [List.length_append]
            omega
    · simp

@[simp] theorem loop_data (d : Option (List Nat → List Nat)) (c : Nat) :
    ∀ fuel s size acc, (readLoop d c fuel s size acc).2.data = s.data := by
  intro fuel
  induction fuel with
  | zero => intro s size acc; rfl
  | succ fuel ih =>
    intro s size acc
    simp only [readLoop]
    split
    · split
      · rfl
      · split
        · rw [ih]
        · split
          · rw [rfb_data]
          · rw [ih]
    · rfl

@[simp] theorem loop_hasPos (d : Option (List Nat → List Nat)) (c : Nat) :
    ∀ fuel s size acc, (readLoop d c fuel s size acc).2.hasPos = s.hasPos := by
  intro fuel
  induction fuel with
  | zero => intro s size acc; rfl
  | succ fuel ih =>
    intro s size acc
    simp only [readLoop]
    split
    · split
      · rfl
      · split
        · rw [ih]
        · split
          · rw [rfb_hasPos]
          · rw [ih]
    · rfl

@[simp] theorem loop_pos (d : Option (List Nat → List Nat)) (c : Nat) :
    ∀ fuel s size acc, (readLoop d c fuel s size acc).2.pos = s.pos := by
  intro fuel
  induction fuel with
  | zero => intro s size acc; rfl
  | succ fuel ih =>
    intro s size acc
    simp only [readLoop]
    split
    · split
      · rfl
      · split
        · rw [ih]
        · split
          · rw [rfb_pos]
          · rw [ih]
    · rfl

/-- Shape preservation through the fill loop: if the loop starts with a
cleared buffer then the final state satisfies `BufferOk` and `EofOk`. -/
theorem loop_shape (d : Option (List Nat → List Nat)) (c : Nat) (hc : 0 < c) :
    ∀ fuel s size acc, s.buffer = [] → s.buffer_pos = 0 → EofOk s →
      BufferOk (readLoop d c fuel s size acc).2 ∧
      EofOk (readLoop d c fuel s size acc).2 := by
  intro fuel
  induction fuel with
  | zero =>
    intro s size acc hb hp he
    exact ⟨Or.inr ⟨hb, hp⟩, he⟩
  | succ fuel ih =>
    intro s size acc hb hp he
    simp only [readLoop]
    split
    · split
      · rename_i hraw
        refine ⟨Or.inr ⟨hb, hp⟩, ?_⟩
        intro _
        refine ⟨hb, hp, ?_⟩
        have : s.data.length ≤ s.fpos := by
          by_contra hlt
          have : s.data.drop s.fpos ≠ [] := by
            rw [ne_eq, List.drop_eq_nil_iff]
            omega
          rw [List.take_eq_nil_iff] at hraw
          rcases hraw with h0 | h0
          · omega
          · exact this h0
        exact this
      · split
        · exact ih _ _ _ hb hp (by
            intro hef
            rename_i hraw _
            exact absurd (he hef).2.2 (by
              have := raw_ne_nil_fpos s c hraw
              omega))
        · split
          · rename_i hraw _ _
            have hfp := raw_ne_nil_fpos s c hraw
            refine ⟨rfb_bufferOk _ _, ?_⟩
            intro hef
            rw [rfb_eof] at hef
            simp only at hef
            exact absurd (he hef).2.2 (by omega)
          · rename_i hraw _ _
            exact ih _ _ _ hb hp (by
              intro hef
              exact absurd (he hef).2.2 (by
                have := raw_ne_nil_fpos s c hraw
                omega))
    · exact ⟨Or.inr ⟨hb, hp⟩, he⟩

/-!  ## Basic facts about `read` -/

/-- `read` never returns more bytes than requested (the slice taken from
the buffer is at most `size` long, and the fill loop stops as soon as the
outstanding size is covered). -/
theorem read_len_le (d : Option (List Nat → List Nat)) (s : CFile) (n : Nat) :
    (read d s n).1.length ≤ n := by
  unfold read
  split
  · simp
  · have h1 := rfb_len s n
    have h2 := loop_len d (max (n - (readFromBuffer s n).1.length) (128 * 1024))
      (s.data.length + 1) (readFromBuffer s n).2
      (n - (readFromBuffer s n).1.length) (readFromBuffer s n).1
    simp only
    omega

@[simp] theorem read_data (d : Option (List Nat → List Nat)) (s : CFile) (n : Nat) :
    (read d s n).2.data = s.data := by
  unfold read
  split
  · rfl
  · simp

@[simp] theorem read_hasPos (d : Option (List Nat → List Nat)) (s : CFile) (n : Nat) :
    (read d s n).2.hasPos = s.hasPos := by
  unfold read
  split
  · rfl
  · simp

/-- With the fake-seek attributes installed, `read` advances `_pos` by
exactly the number of bytes it returns. -/
theorem read_pos_delivered (d : Option (List Nat → List Nat)) (s : CFile) (n : Nat)
    (h : s.hasPos = true) :
    (read d s n).2.pos = s.pos + (read d s n).1.length := by
  unfold read
  split
  · simp
  · simp only
    rw [posUpdate_pos_true _ _ (by simp [h]), loop_pos, rfb_pos]

theorem read_pos_frozen (d : Option (List Nat → List Nat)) (s : CFile) (n : Nat)
    (h : s.hasPos = false) :
    (read d s n).2.pos = s.pos := by
  unfold read
  split
  · rfl
  · simp only
    rw [posUpdate_pos_false _ _ (by simp [h]), loop_pos, rfb_pos]

theorem read_pos_mono (d : Option (List Nat → List Nat)) (s : CFile) (n : Nat) :
    s.pos ≤ (read d s n).2.pos := by
  cases h : s.hasPos
  · rw [read_pos_frozen d s n h]
  · rw [read_pos_delivered d s n h]
    omega

/-- Sticky EOF: once `_eof` is set, `read` returns empty immediately and
changes nothing (in particular it touches neither the raw source nor the
decompressor). -/
theorem read_sticky (d : Option (List Nat → List Nat)) (s : CFile) (n : Nat)
    (h : s.eof = true) : read d s n = ([], s) := by
  unfold read
  rw [if_pos h]

/-- `read` preserves the buffer and EOF shape of reachable states. -/
theorem read_inv (d : Option (List Nat → List Nat)) (s : CFile) (n : Nat)
    (hb : BufferOk s) (he : EofOk s) :
    BufferOk (read d s n).2 ∧ EofOk (read d s n).2 := by
  unfold read
  split
  · exact ⟨hb, he⟩
  · rename_i hef
    simp only
    by_cases hsz : n - (readFromBuffer s n).1.length = 0
    · rw [hsz]
      have hloop : readLoop d (max 0 (128 * 1024)) (s.data.length + 1)
          (readFromBuffer s n).2 0 (readFromBuffer s n).1
          = ((readFromBuffer s n).1, (readFromBuffer s n).2) := by
        simp [readLoop]
      rw [hloop]
      constructor
      · have := rfb_bufferOk s n
        unfold BufferOk at this ⊢
        simpa using this
      · intro hef2
        rw [posUpdate_eof, rfb_eof] at hef2
        exact absurd hef2 (by simp [hef])
    · have hclear := rfb_clears s n (by
        have := rfb_len s n
        omega)
      have hsh := loop_shape d (max (n - (readFromBuffer s n).1.length) (128 * 1024))
        (by omega) (s.data.length + 1) (readFromBuffer s n).2
        (n - (readFromBuffer s n).1.length) (readFromBuffer s n).1
        hclear.1 hclear.2 (by
          intro hef2
          rw [rfb_eof] at hef2
          exact absurd hef2 (by simp [hef]))
      constructor
      · have := hsh.1
        unfold BufferOk at this ⊢
        simpa using this
      · intro hef2
        have := hsh.2 (by simpa using hef2)
        simpa using this

@[simp] theorem posUpdate_zero (s : CFile) : posUpdate s 0 = s := by
  unfold posUpdate; split <;> rfl

/-- `read(0)` is a no-op on every state satisfying the buffer shape
invariant. -/
theorem read_zero (d : Option (List Nat → List Nat)) (s : CFile)
    (hb : BufferOk s) : read d s 0 = ([], s) := by
  obtain ⟨dat, fp, buf, bp, eo, hpp, po⟩ := s
  unfold read
  split
  · rfl
  · simp only
    have hrfb : readFromBuffer ⟨dat, fp, buf, bp, eo, hpp, po⟩ 0
        = ([], ⟨dat, fp, buf, bp, eo, hpp, po⟩) := by
      unfold readFromBuffer
      rcases hb with h1 | ⟨h1, h2⟩
      · simp only at h1
        rw [if_pos (by simp only; omega)]
        rfl
      · simp only at h1 h2
        subst h1
        subst h2
        rw [if_neg (by simp)]
        rfl
    rw [hrfb]
    have hq : readLoop d (max (0 - ([] : List Nat).length) (128 * 1024))
        (dat.length + 1) ⟨dat, fp, buf, bp, eo, hpp, po⟩ (0 - ([] : List Nat).length) []
        = ([], ⟨dat, fp, buf, bp, eo, hpp, po⟩) := by
      simp [readLoop]
    rw [hq]
    simp

/-- Whatever `read` returns starts with the still-pending slice of the
internal buffer (the buffer is served first, in order). -/
theorem read_pending_pref (d : Option (List Nat → List Nat)) (s : CFile) (n : Nat)
    (he : s.eof = false) :
    List.IsPrefix ((pending s).take n) (read d s n).1 := by
  unfold read
  rw [if_neg (by simp [he])]
  simp only
  rw [← rfb_fst s n]
  exact loop_acc_pref _ _ _ _ _ _

/-- Each run of the fill loop either strictly extends the accumulated
data or ends with EOF set and the raw source exhausted. -/
theorem loop_progress (d : Option (List Nat → List Nat)) (c : Nat) (hc : 0 < c) :
    ∀ fuel s size acc, s.data.length - s.fpos < fuel → 0 < size →
      acc.length < (readLoop d c fuel s size acc).1.length ∨
      ((readLoop d c fuel s size acc).2.eof = true ∧
        s.data.length ≤ (readLoop d c fuel s size acc).2.fpos) := by
  intro fuel
  induction fuel with
  | zero =>
    intro s size acc hf hs
    omega
  | succ fuel ih =>
    intro s size acc hf hs
    simp only [readLoop]
    rw [if_pos hs]
    split
    · rename_i hraw
      right
      refine ⟨rfl, ?_⟩
      rw [List.take_eq_nil_iff] at hraw
      rcases hraw with h0 | h0
      · omega
      · rw [List.drop_eq_nil_iff] at h0
        simpa using h0
    · rename_i hraw
      have hfp := raw_ne_nil_fpos s c hraw
      split
      · have := ih { s with fpos := s.fpos + ((s.data.drop s.fpos).take c).length }
          size acc (by simp only; have : 0 < ((s.data.drop s.fpos).take c).length := List.length_pos.mpr hraw; omega) hs
        simpa using this
      · rename_i hno
        have hbuf : dchunk d s ((s.data.drop s.fpos).take c) ≠ [] := by
          intro h0
          match d with
          | none => exact hraw (by simpa [dchunk] using h0)
          | some D => exact hno ⟨rfl, h0⟩
        split
        · rename_i hover
          left
          simp only [List.length_append]
          rw [rfb_len]
          have : (pending { { s with fpos := s.fpos + ((s.data.drop s.fpos).take c).length }
              with buffer := dchunk d s ((s.data.drop s.fpos).take c), buffer_pos := 0 }).length
              = (dchunk d s ((s.data.drop s.fpos).take c)).length := by
            simp [pending]
          rw [this]
          omega
        · rename_i hover
          have := ih { s with fpos := s.fpos + ((s.data.drop s.fpos).take c).length }
            (size - (dchunk d s ((s.data.drop s.fpos).take c)).length)
            (acc ++ dchunk d s ((s.data.drop s.fpos).take c))
            (by simp only; have : 0 < ((s.data.drop s.fpos).take c).length := List.length_pos.mpr hraw; omega)
            (by omega)
          rcases this with hl | hr
          · left
            simp only [List.length_append] at hl
            have : 0 < (dchunk d s ((s.data.drop s.fpos).take c)).length :=
              List.length_pos.mpr hbuf
            omega
          · right
            simpa using hr

/-- A positive-size `read` returns empty only if the buffer held nothing
pending and the raw source is exhausted, with the EOF flag then set. -/
theorem read_empty (d : Option (List Nat → List Nat)) (s : CFile) (n : Nat)
    (hb : BufferOk s) (he : EofOk s) (hn : 0 < n)
    (hout : (read d s n).1 = []) :
    pending s = [] ∧ (read d s n).2.eof = true ∧
      s.data.length ≤ (read d s n).2.fpos := by
  by_cases hef : s.eof = true
  · rw [read_sticky d s n hef]
    obtain ⟨h1, h2, h3⟩ := he hef
    exact ⟨by simp [pending, h1], hef, h3⟩
  · have hef' : s.eof = false := by
      cases h0 : s.eof
      · rfl
      · exact absurd h0 hef
    have hpref := read_pending_pref d s n hef'
    rw [hout] at hpref
    have hlen := hpref.length_le
    rw [List.length_take, List.length_nil] at hlen
    have hpe : (pending s).length = 0 := by omega
    have hpend : pending s = [] := List.eq_nil_of_length_eq_zero hpe
    have hp1 : (readFromBuffer s n).1 = [] := by
      rw [rfb_fst, hpend, List.take_nil]
    refine ⟨hpend, ?_⟩
    unfold read at hout ⊢
    rw [if_neg (by simp [hef'])] at hout ⊢
    simp only [hp1, List.length_nil, Nat.sub_zero] at hout ⊢
    have hprog := loop_progress d (max n (128 * 1024)) (by omega)
      (s.data.length + 1) (readFromBuffer s n).2 n [] (by simp; omega) hn
    rcases hprog with hl | hr
    · rw [hout] at hl
      simp at hl
    · constructor
      · rw [posUpdate_eof]
        exact hr.1
      · rw [posUpdate_fpos]
        simpa using hr.2

/-!  ## Delivery correctness of `read` under the decompressor model -/

theorem cumul_to_all (D : List Nat → List Nat) (data : List Nat)
    (hD : CumulOk D data) (i : Nat) :
    List.IsPrefix (D (data.take i)) (D data) := by
  rcases le_or_lt i data.length with h | h
  · have h2 := hD i data.length h
    rwa [List.take_length] at h2
  · rw [List.take_of_length_le (by omega)]

theorem dchunk_spec (D : List Nat → List Nat) (s : CFile) (raw : List Nat)
    (hD : CumulOk D s.data) :
    D (s.data.take s.fpos) ++ dchunk (some D) s raw
      = D (s.data.take (s.fpos + raw.length)) := by
  have h := hD s.fpos (s.fpos + raw.length) (Nat.le_add_right _ _)
  rw [List.prefix_iff_eq_append] at h
  simpa [dchunk] using h

/-- Main loop invariant: the fill loop extends the delivered bytes so
that delivered-so-far plus still-buffered always equals the cumulative
decompressor output for the raw bytes consumed so far, and it delivers
exactly the outstanding size or whatever remains of the total output,
whichever is smaller. -/
theorem loop_delivery (D : List Nat → List Nat) (c : Nat) :
    ∀ fuel s size dAll acc,
      CumulOk D s.data →
      s.buffer = [] → s.buffer_pos = 0 → s.eof = false →
      dAll ++ acc = D (s.data.take s.fpos) →
      0 < size → 0 < c →
      s.data.length - s.fpos < fuel →
      ((dAll ++ (readLoop (some D) c fuel s size acc).1)
          ++ pending (readLoop (some D) c fuel s size acc).2
        = D (s.data.take (readLoop (some D) c fuel s size acc).2.fpos))
      ∧ (readLoop (some D) c fuel s size acc).1.length
          = acc.length + min size ((D s.data).length - (dAll.length + acc.length)) := by
  intro fuel
  induction fuel with
  | zero =>
    intro s size dAll acc hD hb hp he hacc hs hc hf
    omega
  | succ fuel ih =>
    intro s size dAll acc hD hb hp he hacc hs hc hf
    simp only [readLoop]
    rw [if_pos hs]
    split
    · rename_i hraw
      have hex : s.data.length ≤ s.fpos := by
        rw [List.take_eq_nil_iff] at hraw
        rcases hraw with h0 | h0
        · omega
        · rw [List.drop_eq_nil_iff] at h0
          simpa using h0
      rw [List.take_of_length_le hex] at hacc
      have hlen : dAll.length + acc.length = (D s.data).length := by
        rw [← hacc, List.length_append]
      constructor
      · simp only [pending, hb, hp, List.drop_nil]
        rw [List.append_nil]
        rw [List.take_of_length_le hex]
        exact hacc
      · simp only
        omega
    · rename_i hraw
      have hfp := raw_ne_nil_fpos s c hraw
      have lraw : 0 < ((s.data.drop s.fpos).take c).length := List.length_pos.mpr hraw
      have key : (dAll ++ acc) ++ dchunk (some D) s ((s.data.drop s.fpos).take c)
          = D (s.data.take (s.fpos + ((s.data.drop s.fpos).take c).length)) := by
        rw [hacc]
        exact dchunk_spec D s _ hD
      have keyle : dAll.length + acc.length
            + (dchunk (some D) s ((s.data.drop s.fpos).take c)).length
          ≤ (D s.data).length := by
        have h1 := (cumul_to_all D s.data hD
          (s.fpos + ((s.data.drop s.fpos).take c).length)).length_le
        rw [← key] at h1
        simp only [List.length_append] at h1
        omega
      split
      · rename_i hcont
        have hbuf0 : dchunk (some D) s ((s.data.drop s.fpos).take c) = [] := hcont.2
        have hacc1 : dAll ++ acc
            = D (s.data.take (s.fpos + ((s.data.drop s.fpos).take c).length)) := by
          rw [← key, hbuf0, List.append_nil]
        exact ih { s with fpos := s.fpos + ((s.data.drop s.fpos).take c).length }
          size dAll acc hD hb hp he hacc1 hs hc
          (by show s.data.length - (s.fpos + ((s.data.drop s.fpos).take c).length) < fuel
              omega)
      · rename_i hno
        have hbuf : dchunk (some D) s ((s.data.drop s.fpos).take c) ≠ [] := by
          intro h0
          exact hno ⟨rfl, h0⟩
        have lbuf : 0 < (dchunk (some D) s ((s.data.drop s.fpos).take c)).length :=
          List.length_pos.mpr hbuf
        split
        · rename_i hover
          have hps2 : pending { { s with fpos := s.fpos + ((s.data.drop s.fpos).take c).length }
              with buffer := dchunk (some D) s ((s.data.drop s.fpos).take c),
                   buffer_pos := 0 }
              = dchunk (some D) s ((s.data.drop s.fpos).take c) := rfl
          constructor
          · rw [rfb_fpos, rfb_pending, rfb_fst, hps2]
            rw [List.append_assoc dAll, List.append_assoc acc, List.take_append_drop]
            rw [← List.append_assoc dAll]
            exact key
          · rw [List.length_append, rfb_len, hps2]
            omega
        · rename_i hover
          have hacc2 : dAll ++ (acc ++ dchunk (some D) s ((s.data.drop s.fpos).take c))
              = D (s.data.take (s.fpos + ((s.data.drop s.fpos).take c).length)) := by
            rw [← List.append_assoc]
            exact key
          have hih := ih { s with fpos := s.fpos + ((s.data.drop s.fpos).take c).length }
            (size - (dchunk (some D) s ((s.data.drop s.fpos).take c)).length)
            dAll (acc ++ dchunk (some D) s ((s.data.drop s.fpos).take c))
            hD hb hp he hacc2 (by omega) hc
            (by show s.data.length - (s.fpos + ((s.data.drop s.fpos).take c).length) < fuel
                omega)
          refine ⟨hih.1, ?_⟩
          rw [hih.2]
          simp only [List.length_append]
          omega

/-- Delivery correctness of one `read` call: delivered plus buffered
bytes always track the cumulative decompressor output, and the call
returns `min size remaining` bytes. -/
theorem read_delivery (D : List Nat → List Nat) (s : CFile) (n : Nat)
    (dAll : List Nat)
    (hD : CumulOk D s.data)
    (hinv : dAll ++ pending s = D (s.data.take s.fpos))
    (hb : BufferOk s) (he : EofOk s) :
    ((dAll ++ (read (some D) s n).1) ++ pending (read (some D) s n).2
        = D (s.data.take ((read (some D) s n).2.fpos)))
    ∧ (read (some D) s n).1.length = min n ((D s.data).length - dAll.length) := by
  have hple : dAll.length + (pending s).length ≤ (D s.data).length := by
    have h1 := (cumul_to_all D s.data hD s.fpos).length_le
    rw [← hinv] at h1
    simp only [List.length_append] at h1
    omega
  unfold read
  split
  · rename_i hef
    obtain ⟨hb1, hb2, hb3⟩ := he hef
    have hpend : pending s = [] := by simp [pending, hb1]
    constructor
    · simpa using hinv
    · rw [hpend, List.append_nil, List.take_of_length_le hb3] at hinv
      have hdl : dAll.length = (D s.data).length := by rw [hinv]
      simp only [List.length_nil]
      omega
  · rename_i hef
    simp only
    by_cases hsz : n - (readFromBuffer s n).1.length = 0
    · rw [hsz]
      have hloop : readLoop (some D) (max 0 (128 * 1024)) (s.data.length + 1)
          (readFromBuffer s n).2 0 (readFromBuffer s n).1
          = ((readFromBuffer s n).1, (readFromBuffer s n).2) := by
        simp [readLoop]
      rw [hloop]
      have hl := rfb_len s n
      constructor
      · rw [posUpdate_pending, posUpdate_fpos, rfb_fpos, List.append_assoc, rfb_append]
        exact hinv
      · rw [hl]
        rw [hl] at hsz
        omega
    · have hclear := rfb_clears s n (by have := rfb_len s n; omega)
      have hpfull : (readFromBuffer s n).1 = pending s := by
        have hfl := rfb_len s n
        rw [rfb_fst]
        apply List.take_of_length_le
        omega
      have hacc : dAll ++ (readFromBuffer s n).1 = D (s.data.take s.fpos) := by
        rw [hpfull]
        exact hinv
      have hld := loop_delivery D (max (n - (readFromBuffer s n).1.length) (128 * 1024))
        (s.data.length + 1) (readFromBuffer s n).2
        (n - (readFromBuffer s n).1.length) dAll (readFromBuffer s n).1
        (by rw [rfb_data]; exact hD)
        hclear.1 hclear.2
        (by rw [rfb_eof]; simpa using hef)
        (by rw [rfb_data, rfb_fpos]; exact hacc)
        (by omega)
        (by omega)
        (by rw [rfb_data, rfb_fpos]; omega)
      obtain ⟨hc1, hc2⟩ := hld
      rw [rfb_data] at hc1 hc2
      constructor
      · rw [posUpdate_pending, posUpdate_fpos]
        exact hc1
      · rw [hc2]
        have h5 : (readFromBuffer s n).1.length = min n (pending s).length :=
          rfb_len s n
        omega

/-- Delivery correctness of a whole sequence of `read` calls. -/
theorem runReads_delivery (D : List Nat → List Nat) :
    ∀ ns s dAll,
      CumulOk D s.data →
      dAll ++ pending s = D (s.data.take s.fpos) →
      BufferOk s → EofOk s →
      ((dAll ++ (runReads (some D) ns s).1) ++ pending (runReads (some D) ns s).2
          = D (s.data.take ((runReads (some D) ns s).2.fpos)))
      ∧ (runReads (some D) ns s).2.data = s.data
      ∧ (runReads (some D) ns s).1.length
          = min ns.sum ((D s.data).length - dAll.length)
      ∧ BufferOk (runReads (some D) ns s).2 ∧ EofOk (runReads (some D) ns s).2 := by
  intro ns
  induction ns with
  | nil =>
    intro s dAll hD hinv hb he
    refine ⟨by simpa using hinv, rfl, ?_, hb, he⟩
    simp [runReads]
  | cons n ns ih =>
    intro s dAll hD hinv hb he
    simp only [runReads]
    have hrd := read_delivery D s n dAll hD hinv hb he
    have hri := read_inv (some D) s n hb he
    have hih := ih (read (some D) s n).2 (dAll ++ (read (some D) s n).1)
      (by rw [read_data]; exact hD)
      (by rw [read_data]; exact hrd.1)
      hri.1 hri.2
    obtain ⟨i1, i2, i3, i4, i5⟩ := hih
    rw [read_data] at i1 i2 i3
    refine ⟨?_, i2, ?_, i4, i5⟩
    · rw [← List.append_assoc dAll]
      exact i1
    · simp only [List.length_append, List.sum_cons] at i3 ⊢
      rw [hrd.2] at i3 ⊢
      omega

/-!  ## Facts about the discard-read loop and `_fake_seek_forward` -/

/-- `to_read` never becomes negative: every `read` returns at most the
requested number of bytes. -/
theorem seekLoop_nonneg (d : Option (List Nat → List Nat)) :
    ∀ fuel s t, 0 ≤ t → 0 ≤ (seekLoop d fuel s t).1 := by
  intro fuel
  induction fuel with
  | zero => intro s t h; exact h
  | succ fuel ih =>
    intro s t h
    simp only [seekLoop]
    split
    · split
      · exact h
      · apply ih
        have hle := read_len_le d s t.toNat
        omega
    · exact h

theorem seekLoop_le (d : Option (List Nat → List Nat)) :
    ∀ fuel s t, (seekLoop d fuel s t).1 ≤ t := by
  intro fuel
  induction fuel with
  | zero => intro s t; exact le_refl t
  | succ fuel ih =>
    intro s t
    simp only [seekLoop]
    split
    · split
      · exact le_refl t
      · refine le_trans (ih _ _) ?_
        omega
    · exact le_refl t

theorem seekLoop_inv (d : Option (List Nat → List Nat)) :
    ∀ fuel s t, BufferOk s → EofOk s →
      BufferOk (seekLoop d fuel s t).2 ∧ EofOk (seekLoop d fuel s t).2 := by
  intro fuel
  induction fuel with
  | zero => intro s t hb he; exact ⟨hb, he⟩
  | succ fuel ih =>
    intro s t hb he
    simp only [seekLoop]
    split
    · split
      · exact read_inv d s t.toNat hb he
      · exact ih _ _ (read_inv d s t.toNat hb he).1 (read_inv d s t.toNat hb he).2
    · exact ⟨hb, he⟩

theorem seekLoop_hasPos (d : Option (List Nat → List Nat)) :
    ∀ fuel s t, (seekLoop d fuel s t).2.hasPos = s.hasPos := by
  intro fuel
  induction fuel with
  | zero => intro s t; rfl
  | succ fuel ih =>
    intro s t
    simp only [seekLoop]
    split
    · split
      · exact read_hasPos d s _
      · rw [ih, read_hasPos]
    · rfl

theorem seekLoop_pos_mono (d : Option (List Nat → List Nat)) :
    ∀ fuel s t, s.pos ≤ (seekLoop d fuel s t).2.pos := by
  intro fuel
  induction fuel with
  | zero => intro s t; exact le_refl _
  | succ fuel ih =>
    intro s t
    simp only [seekLoop]
    split
    · split
      · exact read_pos_mono d s _
      · exact le_trans (read_pos_mono d s _) (ih _ _)
    · exact le_refl _

/-- Position accounting for the discard-read loop: with the counter
installed, `_pos` advances by exactly the number of bytes discarded,
which is the decrease of `to_read`. -/
theorem seekLoop_pos_count (d : Option (List Nat → List Nat)) :
    ∀ fuel s t, s.hasPos = true → 0 ≤ t →
      ((seekLoop d fuel s t).2.pos : Int)
        = (s.pos : Int) + (t - (seekLoop d fuel s t).1) := by
  intro fuel
  induction fuel with
  | zero =>
    intro s t hp ht
    simp [seekLoop]
  | succ fuel ih =>
    intro s t hp ht
    simp only [seekLoop]
    split
    · rename_i hpos
      have hrd := read_pos_delivered d s t.toNat hp
      have hle := read_len_le d s t.toNat
      split
      · rename_i hnil
        rw [hrd, hnil]
        simp
      · have hih := ih (read d s t.toNat).2 (t - (read d s t.toNat).1.length)
          (by rw [read_hasPos]; exact hp) (by omega)
        rw [hih, hrd]
        push_cast
        omega
    · simp

theorem fakeSeekResolved_no_toofar (d : Option (List Nat → List Nat))
    (s : CFile) (np : Int) :
    isSeekedTooFar (fakeSeekResolved d s np).1 = false := by
  simp only [fakeSeekResolved]
  split
  · rfl
  · rename_i h
    split
    · rename_i h2
      exfalso
      have := seekLoop_nonneg d (np - (s.pos : Int)).toNat s (np - (s.pos : Int))
        (by omega)
      omega
    · rfl

/-- `_fake_seek_forward` never raises the `"seeked too far"` error: the
`to_read < 0` branch is unreachable. -/
theorem fakeSeek_no_toofar (d : Option (List Nat → List Nat)) (s : CFile)
    (off w : Int) :
    isSeekedTooFar (fakeSeekForward d s off w).1 = false := by
  unfold fakeSeekForward
  split
  · exact fakeSeekResolved_no_toofar d s off
  · split
    · exact fakeSeekResolved_no_toofar d s _
    · rfl

/-- A resolved target at or ahead of the counter never raises. -/
theorem fakeSeekResolved_ok (d : Option (List Nat → List Nat)) (s : CFile)
    (np : Int) (h : (s.pos : Int) ≤ np) :
    (fakeSeekResolved d s np).1 = none := by
  simp only [fakeSeekResolved]
  rw [if_neg (by omega)]
  rw [if_neg (by
    have := seekLoop_nonneg d (np - (s.pos : Int)).toNat s (np - (s.pos : Int))
      (by omega)
    omega)]

theorem fakeSeekResolved_backward (d : Option (List Nat → List Nat)) (s : CFile)
    (np : Int) (h : np < (s.pos : Int)) :
    fakeSeekResolved d s np = (some (.backwardSeek s.pos np), s) := by
  simp only [fakeSeekResolved]
  rw [if_pos h]

theorem fakeSeekResolved_inv (d : Option (List Nat → List Nat)) (s : CFile)
    (np : Int) (hb : BufferOk s) (he : EofOk s) :
    BufferOk (fakeSeekResolved d s np).2 ∧ EofOk (fakeSeekResolved d s np).2 := by
  simp only [fakeSeekResolved]
  split
  · exact ⟨hb, he⟩
  · split
    · exact seekLoop_inv d _ s _ hb he
    · exact seekLoop_inv d _ s _ hb he

theorem fakeSeekResolved_pos_mono (d : Option (List Nat → List Nat)) (s : CFile)
    (np : Int) : s.pos ≤ (fakeSeekResolved d s np).2.pos := by
  simp only [fakeSeekResolved]
  split
  · exact le_refl _
  · split
    · exact seekLoop_pos_mono d _ s _
    · exact seekLoop_pos_mono d _ s _

theorem fakeSeek_inv (d : Option (List Nat → List Nat)) (s : CFile)
    (off w : Int) (hb : BufferOk s) (he : EofOk s) :
    BufferOk (fakeSeekForward d s off w).2 ∧ EofOk (fakeSeekForward d s off w).2 := by
  unfold fakeSeekForward
  split
  · exact fakeSeekResolved_inv d s off hb he
  · split
    · exact fakeSeekResolved_inv d s _ hb he
    · exact ⟨hb, he⟩

theorem fakeSeek_pos_mono (d : Option (List Nat → List Nat)) (s : CFile)
    (off w : Int) : s.pos ≤ (fakeSeekForward d s off w).2.pos := by
  unfold fakeSeekForward
  split
  · exact fakeSeekResolved_pos_mono d s off
  · split
    · exact fakeSeekResolved_pos_mono d s _
    · exact le_refl _

/-!  ## The reachable-state invariant -/

theorem reach_inv (d : Option (List Nat → List Nat)) (s : CFile)
    (h : Reachable d s) : BufferOk s ∧ EofOk s := by
  induction h with
  | init data hp =>
    constructor
    · exact Or.inr ⟨rfl, rfl⟩
    · intro h0
      simp [initState] at h0
  | step s n h ih => exact read_inv d s n ih.1 ih.2
  | seek s off w h ih => exact fakeSeek_inv d s off w ih.1 ih.2

/-!  ## The in-loop asserts -/

theorem loopAsserts_true (d : Option (List Nat → List Nat)) (c : Nat) :
    ∀ fuel s size, s.buffer = [] → s.buffer_pos = 0 →
      readLoopAssertsOk d c fuel s size = true := by
  intro fuel
  induction fuel with
  | zero => intro s size hb hp; rfl
  | succ fuel ih =>
    intro s size hb hp
    obtain ⟨dat, fp, buf, bp, eo, hpp, po⟩ := s
    have hb2 : buf = [] := hb
    have hp2 : bp = 0 := hp
    subst hb2
    subst hp2
    simp only [readLoopAssertsOk]
    split
    · split
      · rfl
      · split
        · exact ih _ _ rfl rfl
        · simp only [Bool.and_eq_true, decide_eq_true_eq]
          refine ⟨⟨trivial, trivial⟩, ?_⟩
          split
          · rfl
          · exact ih _ _ rfl rfl
    · rfl

theorem readAsserts_true (d : Option (List Nat → List Nat)) (s : CFile) (n : Nat)
    (hb : BufferOk s) : readAssertsOk d s n = true := by
  simp only [readAssertsOk]
  rw [Bool.and_eq_true]
  constructor
  · rw [decide_eq_true_eq]
    rcases hb with h1 | ⟨h1, h2⟩
    · omega
    · rw [h1, h2]
      exact Nat.le_refl 0
  · split
    · rfl
    · by_cases hsz : n - (readFromBuffer s n).1.length = 0
      · rw [hsz]
        simp [readLoopAssertsOk]
      · have hclear := rfb_clears s n (by have := rfb_len s n; omega)
        exact loopAsserts_true d _ _ _ _ hclear.1 hclear.2

/-!  ## Remaining helper lemmas for the claim theorems -/

theorem fakeSeek_set_ok (d : Option (List Nat → List Nat)) (s : CFile) (off : Int)
    (h : (s.pos : Int) ≤ off) : (fakeSeekForward d s off 0).1 = none := by
  unfold fakeSeekForward
  split
  · exact fakeSeekResolved_ok d s off h
  · rename_i h1
    exact absurd rfl h1

theorem fakeSeek_cur_ok (d : Option (List Nat → List Nat)) (s : CFile) (off : Int)
    (h : 0 ≤ off) : (fakeSeekForward d s off 1).1 = none := by
  unfold fakeSeekForward
  split
  · rename_i h1
    exact absurd h1 (by decide)
  · split
    · exact fakeSeekResolved_ok d s _ (by omega)
    · rename_i h2
      exact absurd rfl h2

theorem runReads_pos (d : Option (List Nat → List Nat)) :
    ∀ ns s, s.hasPos = true →
      (runReads d ns s).2.pos = s.pos + (runReads d ns s).1.length := by
  intro ns
  induction ns with
  | nil =>
    intro s hp
    simp [runReads]
  | cons n ns ih =>
    intro s hp
    simp only [runReads]
    have h1 := read_pos_delivered d s n hp
    have h2 := ih (read d s n).2 (by rw [read_hasPos]; exact hp)
    simp only [List.length_append]
    omega

/-!  ## Claim theorems -/

/-- C1, counterexample: the claim says a seek past the end of the
available data raises a `SeekError`, but on a 3-byte stream (no
decompressor, so exactly 3 bytes can be delivered) seeking to absolute
target 10 raises nothing: the discard loop exhausts the stream, the final
guard `to_read < 0` does not fire, and the call returns normally with the
position counter stuck at 3 and EOF reached. -/
theorem claim_c1_counterexample :
    (initState [1, 2, 3] true).data.length = 3
    ∧ (fakeSeekForward none (initState [1, 2, 3] true) 10 0).1 = none
    ∧ (fakeSeekForward none (initState [1, 2, 3] true) 10 0).2.pos = 3
    ∧ (fakeSeekForward none (initState [1, 2, 3] true) 10 0).2.eof = true := by
  refine ⟨rfl, ?_, ?_, ?_⟩ <;> decide

/-- C1, amended: when the resolved seek target is at or ahead of the
position counter, `_fake_seek_forward` never raises — in particular a
seek past the end of the available data returns normally (the discard
loop just stops early), because the only late error guard is
`to_read < 0`, which is unreachable. -/
theorem claim_c1_amended :
    (∀ d s off, ((s : CFile).pos : Int) ≤ off →
      (fakeSeekForward d s off 0).1 = none)
    ∧ (∀ d s off, (0 : Int) ≤ off → (fakeSeekForward d s off 1).1 = none) :=
  ⟨fun d s off h => fakeSeek_set_ok d s off h,
   fun d s off h => fakeSeek_cur_ok d s off h⟩

/-- C1, witness for the amended claim: the counterexample scenario itself
(target 10 on a 3-byte stream) returns without an error. -/
theorem claim_c1_amended_witness :
    (fakeSeekForward none (initState [1, 2, 3] true) 10 0).1 = none :=
  claim_c1_amended.1 none (initState [1, 2, 3] true) 10 (by decide)

/-- C5: a seek whose resolved target (absolute for `SEEK_SET`, counter
plus offset for `SEEK_CUR`) is strictly below the counter raises the
backward-seek error with the state untouched; a target at or ahead of the
counter is never rejected as backward; any other origin raises the
usage (`whence`) error with the state untouched. -/
theorem claim_c5_origins_and_backward :
    (∀ d s off, off < ((s : CFile).pos : Int) →
      fakeSeekForward d s off 0 = (some (.backwardSeek s.pos off), s))
    ∧ (∀ d s off, ((s : CFile).pos : Int) + off < (s.pos : Int) →
        fakeSeekForward d s off 1
          = (some (.backwardSeek s.pos ((s.pos : Int) + off)), s))
    ∧ (∀ d s (off w : Int), w ≠ 0 → w ≠ 1 →
        fakeSeekForward d s off w = (some (.badWhence w), s))
    ∧ (∀ d s off, ((s : CFile).pos : Int) ≤ off →
        isBackwardSeek (fakeSeekForward d s off 0).1 = false)
    ∧ (∀ d s off, (0 : Int) ≤ off →
        isBackwardSeek (fakeSeekForward d s off 1).1 = false) := by
  refine ⟨?_, ?_, ?_, ?_, ?_⟩
  · intro d s off h
    unfold fakeSeekForward
    split
    · exact fakeSeekResolved_backward d s off h
    · rename_i h1
      exact absurd rfl h1
  · intro d s off h
    unfold fakeSeekForward
    split
    · rename_i h1
      exact absurd h1 (by decide)
    · split
      · exact fakeSeekResolved_backward d s _ h
      · rename_i h2
        exact absurd rfl h2
  · intro d s off w h0 h1
    unfold fakeSeekForward
    split
    · rename_i hw
      exact absurd hw h0
    · split
      · rename_i hw
        exact absurd hw h1
      · rfl
  · intro d s off h
    rw [fakeSeek_set_ok d s off h]
    rfl
  · intro d s off h
    rw [fakeSeek_cur_ok d s off h]
    rfl

/-- C5, witness. -/
theorem claim_c5_witness :
    fakeSeekForward none (initState [1, 2] true) (-1) 0
        = (some (.backwardSeek 0 (-1)), initState [1, 2] true)
    ∧ fakeSeekForward none (initState [1, 2] true) 0 2
        = (some (.badWhence 2), initState [1, 2] true)
    ∧ isBackwardSeek (fakeSeekForward none (initState [1, 2] true) 1 0).1 = false :=
  ⟨claim_c5_origins_and_backward.1 none (initState [1, 2] true) (-1) (by decide),
   claim_c5_origins_and_backward.2.2.1 none (initState [1, 2] true) 0 2
     (by decide) (by decide),
   claim_c5_origins_and_backward.2.2.2.1 none (initState [1, 2] true) 1 (by decide)⟩

/-- C9: `_CompressedFile.read(n)` never returns more than `n` bytes, so
after the discard loop `to_read` is never negative and the
`"seeked too far"` branch of `_fake_seek_forward` is unreachable for
every stream, offset and origin. -/
theorem claim_c9_toofar_unreachable :
    (∀ d s n, (read d s n).1.length ≤ n)
    ∧ (∀ d (fuel : Nat) s t, 0 ≤ t → 0 ≤ (seekLoop d fuel s t).1)
    ∧ (∀ d s (off w : Int),
        isSeekedTooFar (fakeSeekForward d s off w).1 = false) :=
  ⟨fun d s n => read_len_le d s n,
   fun d fuel s t h => seekLoop_nonneg d fuel s t h,
   fun d s off w => fakeSeek_no_toofar d s off w⟩

/-- C9, witness: the loop bound holds at a concrete input. -/
theorem claim_c9_witness :
    (0 : Int) ≤ (seekLoop none 5 (initState [1, 2, 3] true) 5).1 :=
  claim_c9_toofar_unreachable.2.1 none 5 (initState [1, 2, 3] true) 5 (by decide)

/-- C6: `tell()` returns the position counter exactly; with the counter
installed each `read` advances it by exactly the bytes it delivered, so
over any sequence of reads the counter accumulates the total delivered
bytes; the counter never decreases under `read` or `seek`; and the
discard loop of `seek` advances the counter by exactly the bytes it
discarded (the decrease of `to_read`). -/
theorem claim_c6_position_counter :
    (∀ s, fakeTell s = s.pos)
    ∧ (∀ d s n, (s : CFile).hasPos = true →
        (read d s n).2.pos = s.pos + (read d s n).1.length)
    ∧ (∀ d ns s, (s : CFile).hasPos = true →
        (runReads d ns s).2.pos = s.pos + (runReads d ns s).1.length)
    ∧ (∀ d s n, (s : CFile).pos ≤ (read d s n).2.pos)
    ∧ (∀ d s (off w : Int), (s : CFile).pos ≤ (fakeSeekForward d s off w).2.pos)
    ∧ (∀ d (fuel : Nat) s t, (s : CFile).hasPos = true → 0 ≤ t →
        ((seekLoop d fuel s t).2.pos : Int)
          = (s.pos : Int) + (t - (seekLoop d fuel s t).1)) :=
  ⟨fun s => rfl,
   fun d s n h => read_pos_delivered d s n h,
   fun d ns s h => runReads_pos d ns s h,
   fun d s n => read_pos_mono d s n,
   fun d s off w => fakeSeek_pos_mono d s off w,
   fun d fuel s t h ht => seekLoop_pos_count d fuel s t h ht⟩

/-- C6, witness. -/
theorem claim_c6_witness :
    (read none (initState [5, 6] true) 1).2.pos
      = (initState [5, 6] true).pos + (read none (initState [5, 6] true) 1).1.length :=
  claim_c6_position_counter.2.1 none (initState [5, 6] true) 1 rfl

/-- C8: on every reachable state of `_CompressedFile`, `read(0)` returns
empty and leaves the state — buffer contents, buffer cursor, EOF flag,
raw-source cursor and position counter — completely unchanged. -/
theorem claim_c8_read_zero_noop (d : Option (List Nat → List Nat)) (s : CFile)
    (h : Reachable d s) : read d s 0 = ([], s) :=
  read_zero d s (reach_inv d s h).1

/-- C8, witness. -/
theorem claim_c8_witness :
    read none (initState [1, 2] true) 0 = ([], initState [1, 2] true) :=
  claim_c8_read_zero_noop none (initState [1, 2] true) (Reachable.init [1, 2] true)

/-- C4: on reachable states, a positive-size `read` returns empty only
when no buffered bytes remain and the raw source is exhausted (with the
EOF flag then set); and EOF is sticky — once the flag is set, `read`
returns empty immediately and changes nothing, so it touches neither the
raw source nor the decompressor again. -/
theorem claim_c4_empty_only_at_eof_and_sticky :
    (∀ d s n, Reachable d s → 0 < n → (read d s n).1 = [] →
      pending s = [] ∧ (read d s n).2.eof = true
        ∧ (s : CFile).data.length ≤ (read d s n).2.fpos)
    ∧ (∀ d s n, (s : CFile).eof = true → read d s n = ([], s)) :=
  ⟨fun d s n hr hn hout =>
    read_empty d s n (reach_inv d s hr).1 (reach_inv d s hr).2 hn hout,
   fun d s n h => read_sticky d s n h⟩

/-- C4, witness: a raw source that never returns data yields EOF with an
empty result, and the EOF state then absorbs every further read. -/
theorem claim_c4_witness :
    (pending (initState [] true) = []
      ∧ (read none (initState [] true) 1).2.eof = true)
    ∧ read none (read none (initState [] true) 1).2 1
        = ([], (read none (initState [] true) 1).2) :=
  ⟨⟨(claim_c4_empty_only_at_eof_and_sticky.1 none (initState [] true) 1
      (Reachable.init [] true) (by decide) (by decide)).1,
    (claim_c4_empty_only_at_eof_and_sticky.1 none (initState [] true) 1
      (Reachable.init [] true) (by decide) (by decide)).2.1⟩,
   claim_c4_empty_only_at_eof_and_sticky.2 none (read none (initState [] true) 1).2 1
     (by decide)⟩

/-- C10: in every reachable state, a set EOF flag implies the internal
buffer is empty with cursor 0 (so reaching EOF never discards produced
but undelivered bytes); the entry asserts of `read` (cursor within the
buffer) hold; and the in-loop asserts that the buffer is empty on each
fill-loop iteration hold for every requested size. -/
theorem claim_c10_eof_buffer_empty_and_asserts (d : Option (List Nat → List Nat))
    (s : CFile) (h : Reachable d s) :
    ((s : CFile).eof = true → s.buffer = [] ∧ s.buffer_pos = 0)
    ∧ s.buffer_pos ≤ s.buffer.length
    ∧ (∀ n, readAssertsOk d s n = true) := by
  obtain ⟨hb, he⟩ := reach_inv d s h
  refine ⟨fun hef => ⟨(he hef).1, (he hef).2.1⟩, ?_, fun n => readAsserts_true d s n hb⟩
  rcases hb with h1 | ⟨h1, h2⟩
  · omega
  · rw [h1, h2]
    exact Nat.le_refl 0

/-- C10, witness. -/
theorem claim_c10_witness :
    (initState [7] false).buffer_pos ≤ (initState [7] false).buffer.length
    ∧ readAssertsOk none (initState [7] false) 3 = true :=
  ⟨(claim_c10_eof_buffer_empty_and_asserts none (initState [7] false)
      (Reachable.init [7] false)).2.1,
   (claim_c10_eof_buffer_empty_and_asserts none (initState [7] false)
      (Reachable.init [7] false)).2.2 3⟩

/-- C7: for a tar-wrapped name (`.tar.gz`, `.tar.bz2` or `.tgz`), opening
succeeds exactly when the archive has exactly one member, in which case
the member's stream and declared size are exposed; an empty archive and a
multi-member archive raise the two `FormatError`-class errors. -/
theorem claim_c7_tar_single_member (name : String) (ms : List TarMember)
    (hn : isTarName name = true) :
    ((openTarMember name ms).isOk = true ↔ ms.length = 1)
    ∧ (∀ m, openTarMember name [m] = .ok (m.stream, m.size))
    ∧ (ms = [] → openTarMember name ms = .error (.tarEmpty name))
    ∧ (1 < ms.length → openTarMember name ms = .error (.tarMoreThanOne name)) := by
  refine ⟨?_, ?_, ?_, ?_⟩
  · match ms with
    | [] => simp [openTarMember, Except.isOk, Except.toBool]
    | [m] => simp [openTarMember, Except.isOk, Except.toBool]
    | m1 :: m2 :: rest =>
      simp [openTarMember, Except.isOk, Except.toBool]
  · intro m
    simp [openTarMember]
  · intro h0
    subst h0
    simp [openTarMember]
  · intro h1
    unfold openTarMember
    rw [if_pos h1]

/-- C7, witness. -/
theorem claim_c7_witness :
    openTarMember ("disk.img.tar.gz") [⟨[9, 9], 2⟩] = .ok ([9, 9], 2)
    ∧ openTarMember ("disk.img.tar.gz") [] = .error (.tarEmpty ("disk.img.tar.gz")) :=
  ⟨(claim_c7_tar_single_member ("disk.img.tar.gz") [⟨[9, 9], 2⟩] (by decide)).2.1
      ⟨[9, 9], 2⟩,
   (claim_c7_tar_single_member ("disk.img.tar.gz") [] (by decide)).2.2.1 rfl⟩

/-- C2: under the cumulative-output model of a streaming decompressor
(`CumulOk D data`, with `D data = S` saying that the raw bytes `data`
are `S` compressed in the recognized format), reading the stream back
through `_CompressedFile` with any pattern of positive read sizes whose
total covers `S` concatenates to exactly `S`; in particular the output
is independent of the read-size pattern and equals a whole-file read. -/
theorem claim_c2_roundtrip (D : List Nat → List Nat) (data S : List Nat)
    (ns : List Nat) (hp : Bool)
    (hnil : D [] = [])
    (hmono : CumulOk D data)
    (hS : D data = S)
    (hpos : ∀ n ∈ ns, 0 < n)
    (hcover : S.length ≤ ns.sum) :
    (runReads (some D) ns (initState data hp)).1 = S := by
  have hD : CumulOk D (initState data hp).data := hmono
  have hinv : ([] : List Nat) ++ pending (initState data hp)
      = D ((initState data hp).data.take (initState data hp).fpos) := by
    show ([] : List Nat) ++ [] = D (data.take 0)
    rw [List.append_nil, List.take_zero, hnil]
  have hb : BufferOk (initState data hp) := Or.inr ⟨rfl, rfl⟩
  have he : EofOk (initState data hp) := by
    intro h0
    simp [initState] at h0
  obtain ⟨h1, h2, h3, h4, h5⟩ :=
    runReads_delivery D ns (initState data hp) [] hD hinv hb he
  have hDS : D (initState data hp).data = S := hS
  have hlen : (runReads (some D) ns (initState data hp)).1.length = S.length := by
    rw [h3, hDS]
    simp only [List.length_nil, Nat.sub_zero]
    omega
  have hpref : List.IsPrefix (runReads (some D) ns (initState data hp)).1 S := by
    have h6 : List.IsPrefix
        ((([] : List Nat) ++ (runReads (some D) ns (initState data hp)).1)
          ++ pending (runReads (some D) ns (initState data hp)).2) S := by
      rw [h1]
      have h7 := cumul_to_all D (initState data hp).data hD
        ((runReads (some D) ns (initState data hp)).2.fpos)
      rwa [hDS] at h7
    refine List.IsPrefix.trans ?_ h6
    rw [List.nil_append]
    exact List.prefix_append _ _
  exact hpref.eq_of_length hlen

/-- C2, witness: the identity decompressor (an uncompressed stream) with
the read pattern `[2, 5]` reproduces the three data bytes. -/
theorem claim_c2_witness :
    (runReads (some (fun l => l)) [2, 5] (initState [5, 6, 7] true)).1
      = [5, 6, 7] :=
  claim_c2_roundtrip (fun l => l) [5, 6, 7] [5, 6, 7] [2, 5] true rfl
    (fun i j hij => List.take_prefix_take_left _ hij) rfl
    (by intro n hn; fin_cases hn <;> decide) (by decide)

/-- C3: when the first decompressed chunk is at least as long as the
outstanding request, `read` stores the entire chunk in the internal
buffer, appends exactly the outstanding prefix to the result (so the call
returns exactly `n` bytes), leaves the surplus pending (for a strict
surplus, the buffer literally holds the whole chunk with the cursor at
`n`), does not reach EOF, and every subsequent read returns the surplus
bytes first, in order. -/
theorem claim_c3_overproduction (D : List Nat → List Nat) (s : CFile) (n : Nat)
    (hb : s.buffer = []) (hbp : s.buffer_pos = 0) (he : s.eof = false)
    (hn : 0 < n)
    (hcover : n ≤ (dchunk (some D) s
        ((s.data.drop s.fpos).take (max n (128 * 1024)))).length) :
    (read (some D) s n).1
        = (dchunk (some D) s ((s.data.drop s.fpos).take (max n (128 * 1024)))).take n
    ∧ (read (some D) s n).1.length = n
    ∧ pending (read (some D) s n).2
        = (dchunk (some D) s ((s.data.drop s.fpos).take (max n (128 * 1024)))).drop n
    ∧ (n < (dchunk (some D) s ((s.data.drop s.fpos).take (max n (128 * 1024)))).length →
        (read (some D) s n).2.buffer
            = dchunk (some D) s ((s.data.drop s.fpos).take (max n (128 * 1024)))
          ∧ (read (some D) s n).2.buffer_pos = n)
    ∧ (read (some D) s n).2.eof = false
    ∧ (∀ m, List.IsPrefix ((pending (read (some D) s n).2).take m)
        ((read (some D) (read (some D) s n).2 m).1)) := by
  obtain ⟨dat, fp, buf, bp, eo, hpp, po⟩ := s
  have hb2 : buf = [] := hb
  have hbp2 : bp = 0 := hbp
  have he2 : eo = false := he
  subst hb2
  subst hbp2
  subst he2
  simp only at hcover ⊢
  have hcov : n ≤ (dchunk (some D) ⟨dat, fp, [], 0, false, hpp, po⟩ ((dat.drop fp).take (max n (128 * 1024)))).length := hcover
  have hraw : ¬(((dat.drop fp).take (max n (128 * 1024))) = []) := by
    intro h0
    rw [h0] at hcov
    simp only [dchunk, List.length_nil, Nat.add_zero, List.length_drop,
      Nat.sub_self] at hcov
    omega
  have hcont : ¬((Option.some D).isSome = true
      ∧ dchunk (some D) ⟨dat, fp, [], 0, false, hpp, po⟩ ((dat.drop fp).take (max n (128 * 1024))) = []) := by
    rintro ⟨-, h0⟩
    rw [h0] at hcov
    simp at hcov
    omega
  have hrfb : readFromBuffer ⟨dat, fp, [], 0, false, hpp, po⟩ n = ([], ⟨dat, fp, [], 0, false, hpp, po⟩) := by
    unfold readFromBuffer
    rw [if_neg (by simp)]
    rfl
  have hkey : read (some D) ⟨dat, fp, [], 0, false, hpp, po⟩ n
      = ([] ++ (readFromBuffer ⟨dat, fp + ((dat.drop fp).take (max n (128 * 1024))).length,
          dchunk (some D) ⟨dat, fp, [], 0, false, hpp, po⟩ ((dat.drop fp).take (max n (128 * 1024))),
          0, false, hpp, po⟩ n).1,
         posUpdate (readFromBuffer ⟨dat, fp + ((dat.drop fp).take (max n (128 * 1024))).length,
          dchunk (some D) ⟨dat, fp, [], 0, false, hpp, po⟩ ((dat.drop fp).take (max n (128 * 1024))),
          0, false, hpp, po⟩ n).2
           ([] ++ (readFromBuffer ⟨dat, fp + ((dat.drop fp).take (max n (128 * 1024))).length,
          dchunk (some D) ⟨dat, fp, [], 0, false, hpp, po⟩ ((dat.drop fp).take (max n (128 * 1024))),
          0, false, hpp, po⟩ n).1).length) := by
    simp only [read]
    rw [if_neg (by simp), hrfb]
    simp only [List.length_nil, Nat.sub_zero]
    simp only [readLoop]
    rw [if_pos hn, if_neg hraw, if_neg hcont, if_pos hcov]
  have hkey1 : (read (some D) ⟨dat, fp, [], 0, false, hpp, po⟩ n).1 = [] ++ (readFromBuffer ⟨dat, fp + ((dat.drop fp).take (max n (128 * 1024))).length,
          dchunk (some D) ⟨dat, fp, [], 0, false, hpp, po⟩ ((dat.drop fp).take (max n (128 * 1024))),
          0, false, hpp, po⟩ n).1 := by
    rw [hkey]
  have hkey2 : (read (some D) ⟨dat, fp, [], 0, false, hpp, po⟩ n).2
      = posUpdate (readFromBuffer ⟨dat, fp + ((dat.drop fp).take (max n (128 * 1024))).length,
          dchunk (some D) ⟨dat, fp, [], 0, false, hpp, po⟩ ((dat.drop fp).take (max n (128 * 1024))),
          0, false, hpp, po⟩ n).2
          ([] ++ (readFromBuffer ⟨dat, fp + ((dat.drop fp).take (max n (128 * 1024))).length,
          dchunk (some D) ⟨dat, fp, [], 0, false, hpp, po⟩ ((dat.drop fp).take (max n (128 * 1024))),
          0, false, hpp, po⟩ n).1).length := by
    rw [hkey]
  have hps : pending ⟨dat, fp + ((dat.drop fp).take (max n (128 * 1024))).length,
          dchunk (some D) ⟨dat, fp, [], 0, false, hpp, po⟩ ((dat.drop fp).take (max n (128 * 1024))),
          0, false, hpp, po⟩ = dchunk (some D) ⟨dat, fp, [], 0, false, hpp, po⟩ ((dat.drop fp).take (max n (128 * 1024))) := rfl
  refine ⟨?_, ?_, ?_, ?_, ?_, ?_⟩
  · rw [hkey1, List.nil_append, rfb_fst, hps]
  · rw [hkey1, List.nil_append, rfb_fst, hps, List.length_take]
    omega
  · rw [hkey2, posUpdate_pending, rfb_pending, hps]
  · intro hlt
    constructor
    · rw [hkey2, posUpdate_buffer]
      unfold readFromBuffer
      rw [if_pos (by show (dchunk (some D) ⟨dat, fp, [], 0, false, hpp, po⟩ ((dat.drop fp).take (max n (128 * 1024)))).length - 0 > n; omega)]
    · rw [hkey2, posUpdate_buffer_pos]
      unfold readFromBuffer
      rw [if_pos (by show (dchunk (some D) ⟨dat, fp, [], 0, false, hpp, po⟩ ((dat.drop fp).take (max n (128 * 1024)))).length - 0 > n; omega)]
      show 0 + n = n
      omega
  · rw [hkey2, posUpdate_eof, rfb_eof]
  · intro m
    apply read_pending_pref
    rw [hkey2, posUpdate_eof, rfb_eof]

/-- C3, witness: the identity decompressor over five raw bytes with a
2-byte request over-produces; the call returns the first two bytes, the
surplus three remain pending and head the next read. -/
theorem claim_c3_witness :
    (read (some (fun l => l)) (initState [1, 2, 3, 4, 5] true) 2).1 = [1, 2]
    ∧ pending (read (some (fun l => l)) (initState [1, 2, 3, 4, 5] true) 2).2
        = [3, 4, 5]
    ∧ List.IsPrefix [3, 4]
        ((read (some (fun l => l))
          (read (some (fun l => l)) (initState [1, 2, 3, 4, 5] true) 2).2 2).1) := by
  have h := claim_c3_overproduction (fun l => l) (initState [1, 2, 3, 4, 5] true) 2
    rfl rfl rfl (by decide) (by decide)
  refine ⟨?_, ?_, ?_⟩
  · rw [h.1]
    decide
  · rw [h.2.2.1]
    decide
  · have hm := h.2.2.2.2.2 2
    have he2 : (pending (read (some (fun l => l))
        (initState [1, 2, 3, 4, 5] true) 2).2).take 2 = [3, 4] := by
      rw [h.2.2.1]
      decide
    rwa [he2] at hm

end TransRead
